import Mathlib

/-!
Verification of `human_folder_analysis.py` (Yang-Lab repository).

The development shallowly embeds the core of the script:

* `splitext_ext`       — `os.path.splitext(file)[1]` on a bare filename;
* `joinedSuffixes`     — `''.join(Path(fname).suffixes)`;
* `is_nifti_filename`  — the NIfTI predicate (lines 48-53 of the source);
* `Tree` / `walkTree`  — the directory tree and `os.walk` (top-down DFS);
* `mkRecord`           — the per-directory `folder_info` dictionary;
* `consume`/`aggregate`— the body of the `os.walk` loop in
  `scan_human_folder_complete` (lines 107-170), accumulating global and
  per-main-subfolder counters;
* `overviewOf`         — the `human_data['overview']` block (lines 172-181);
* `classifyStatus`     — the Subject_Status rules of `create_subfolder_sheet`;
* `most_common20`      — `Counter.most_common(20)` used for the File_Types
  ranking (stable sort by count descending);
* `sortRows`           — `sort_values(['Depth', 'Relative_Path'])`.

Python `Counter`/`dict` objects are embedded as association lists in
insertion order, with dict-faithful first-match lookup and update.
-/

namespace HumanFolder

/-! ### Counters (Python `collections.Counter` as an insertion-ordered association list) -/

/-- `c[k] += n` on a Python `Counter`: add to the first entry with key `k`,
or append a fresh entry at the end (insertion order is preserved). -/
def bumpBy {α : Type} [DecidableEq α] : List (α × Nat) → α → Nat → List (α × Nat)
  | [], k, n => [(k, n)]
  | (k', m) :: rest, k, n =>
      if k = k' then (k', m + n) :: rest else (k', m) :: bumpBy rest k n

/-- The value a counter associates to key `k`: the sum of all entries with
that key (counters built by `bumpBy` have at most one entry per key, where
this is exactly the dict lookup with default 0). -/
def sumKey {α : Type} [DecidableEq α] : List (α × Nat) → α → Nat
  | [], _ => 0
  | (k', n) :: rest, k => (if k = k' then n else 0) + sumKey rest k

/-- Dict-style lookup with default 0: the first entry with key `k`, else 0
(`cnts.get(key, 0)`). -/
def lookupCount {α : Type} [DecidableEq α] : List (α × Nat) → α → Nat
  | [], _ => 0
  | (k', n) :: rest, k => if k = k' then n else lookupCount rest k

/-- `sum(counter.values())`. -/
def counterTotal {α : Type} (c : List (α × Nat)) : Nat :=
  (c.map (·.2)).sum

/-- `for k, n in c.items(): g[k] += n` — merge counter `c` into `g`. -/
def mergeCounter {α : Type} [DecidableEq α] (g c : List (α × Nat)) : List (α × Nat) :=
  c.foldl (fun acc e => bumpBy acc e.1 e.2) g
/-! ### `os.path.splitext` and the extension classifier -/

/-- Auxiliary scan for `os.path.splitext`: `seen` records whether a non-dot
character has occurred so far; a dot begins the extension only if a later
dot does not, and only if a non-dot character precedes it (so `.bashrc`
and `..a` have extension `''`, exactly as `posixpath.splitext`). -/
def sxAux : Bool → List Char → List Char
  | _, [] => []
  | seen, c :: cs =>
      if c = '.' then
        let later := sxAux seen cs
        if later = [] then (if seen then c :: cs else []) else later
      else
        sxAux true cs

/-- `os.path.splitext(fname)[1]` for a bare filename (no directory part):
the suffix starting at the last dot that is preceded by some non-dot
character; `[]` otherwise. -/
def splitext_ext (cs : List Char) : List Char :=
  sxAux false cs

/-- `os.path.splitext(file)[1].lower()` — the key used for every
`file_types` / `all_files_by_type` counter update (line 130 of the source). -/
def extLower (f : String) : String :=
  String.mk ((splitext_ext f.data).map Char.toLower)

/-- `''.join(Path(fname).suffixes)`: pathlib returns `[]` for a name ending
in a dot, otherwise strips leading dots and returns the dot-separated
suffixes of the remainder; their concatenation is the segment of the
stripped name from its first dot onward. -/
def joinedSuffixes (cs : List Char) : List Char :=
  if cs.getLast? = some '.' then []
  else (cs.dropWhile (fun c => c = '.')).dropWhile (fun c => c ≠ '.')

/-- Lines 48-53 of the source: true only for `.nii` or `.nii.gz`
(case-insensitive), examining the full compound suffix. -/
def is_nifti_filename (fname : String) : Bool :=
  let s := (joinedSuffixes fname.data).map Char.toLower
  List.isSuffixOf ".nii".data s || List.isSuffixOf ".nii.gz".data s

/-- Line 134: `ext in ('.dcm', '.ima')`. -/
def isDicomFile (f : String) : Bool :=
  extLower f = ".dcm" || extLower f = ".ima"

/-- Line 136: `ext == '.dat'`. -/
def isDatFile (f : String) : Bool :=
  extLower f = ".dat"

/-! ### Subject status classifier (`create_subfolder_sheet`, lines 260-272) -/

inductive SubjectStatus : Type where
  | processed
  | notProcessed
  | unknown
deriving DecidableEq, Repr

/-- Lines 263-271: `mat > 0` → Processed, else `dat + ima > 0` →
Not Processed, else Unknown. -/
def classifyStatus (mat dat ima : Nat) : SubjectStatus :=
  if mat > 0 then .processed
  else if dat + ima > 0 then .notProcessed
  else .unknown

/-- The status of a subject's aggregated extension counter: the classifier
applied to `cnts.get('.mat', 0)`, `cnts.get('.dat', 0)`, `cnts.get('.ima', 0)`. -/
def statusOfCounter (cnts : List (String × Nat)) : SubjectStatus :=
  classifyStatus (lookupCount cnts ".mat") (lookupCount cnts ".dat")
    (lookupCount cnts ".ima")

/-! ### The directory tree and `os.walk` -/

/-- A directory node: the files directly inside it and its immediate
subdirectories with their names (in `os.listdir` order). -/
inductive Tree : Type where
  | node (files : List String) (subdirs : List (String × Tree))
deriving Inhabited

def Tree.files : Tree → List String
  | .node fs _ => fs

def Tree.subdirs : Tree → List (String × Tree)
  | .node _ sds => sds

/-- Names of the immediate child directories of a node (`os.listdir`
filtered by `os.path.isdir` — in this model every subdir is a directory). -/
def childNames (t : Tree) : List String :=
  t.subdirs.map Prod.fst

/-- The per-directory `folder_info` dictionary (lines 141-152), minus the
inert presentation fields `full_path` (absolute path string) and the
reserved unused entries. `path` holds the `os.sep`-split segments of
`os.path.relpath(root, human_root)`, `[]` standing for `'.'`. -/
structure FolderRecord : Type where
  path : List String
  depth : Nat
  num_subfolders : Nat
  num_files : Nat
  file_types : List (String × Nat)
  dicom_files : Nat
  dat_files : Nat
  nifti_files : Nat
  subfolder_names : List String
deriving DecidableEq, Repr

/-- The `file_types` counter of one directory: one `bumpBy` per file at key
`os.path.splitext(file)[1].lower()` (lines 129-132). -/
def buildFileTypes (files : List String) : List (String × Nat) :=
  files.foldl (fun c f => bumpBy c (extLower f) 1) []

/-- Lines 111-152 of the source: the record built for one visited node.
`depth` is `0` for the root and the number of path segments otherwise,
which is exactly `path.length` in the segment representation. -/
def mkRecord (rel : List String) (files : List String) (subdirs : List (String × Tree)) :
    FolderRecord :=
  { path := rel
    depth := rel.length
    num_subfolders := subdirs.length
    num_files := files.length
    file_types := buildFileTypes files
    dicom_files := files.countP (fun f => isDicomFile f)
    dat_files := files.countP (fun f => isDatFile f)
    nifti_files := files.countP (fun f => is_nifti_filename f)
    subfolder_names := (subdirs.map Prod.fst).take 10 }

mutual

/-- `os.walk` top-down: the node's own record first, then the records of
each subtree in listing order. -/
def walkTree : Tree → List String → List FolderRecord
  | .node files subdirs, rel => mkRecord rel files subdirs :: walkSub subdirs rel

def walkSub : List (String × Tree) → List String → List FolderRecord
  | [], _ => []
  | (n, t) :: rest, rel => walkTree t (rel ++ [n]) ++ walkSub rest rel

end

/-! ### The aggregator (`scan_human_folder_complete`, lines 89-170) -/

/-- The per-main-subfolder accumulator initialised at lines 90-101, minus
the inert `path` string and the initialised-but-never-used `all_folders`
list. -/
structure SubfolderData : Type where
  folder_details : List FolderRecord
  file_counts : List (String × Nat)
  depth_counts : List (Nat × Nat)
  total_files : Nat
  total_folders : Nat
  dicom_files : Nat
  dat_files : Nat
deriving DecidableEq, Repr

def emptySubfolder : SubfolderData :=
  { folder_details := [], file_counts := [], depth_counts := []
    total_files := 0, total_folders := 0, dicom_files := 0, dat_files := 0 }

/-- Lines 158-166: fold one FolderRecord into its main subfolder's data. -/
def addRecord (sf : SubfolderData) (r : FolderRecord) : SubfolderData :=
  { folder_details := sf.folder_details ++ [r]
    file_counts := mergeCounter sf.file_counts r.file_types
    depth_counts := bumpBy sf.depth_counts r.depth 1
    total_files := sf.total_files + r.num_files
    total_folders := sf.total_folders + 1
    dicom_files := sf.dicom_files + r.dicom_files
    dat_files := sf.dat_files + r.dat_files }

/-- The mutable `human_data` dictionary (global part) plus the running
`total_folders` / `total_files` loop counters. -/
structure AggState : Type where
  subfolders : List (String × SubfolderData)
  all_folders : List FolderRecord
  all_files_by_type : List (String × Nat)
  total_folders : Nat
  total_files : Nat
deriving DecidableEq, Repr

/-- Python-dict-style first-match lookup in an association list. -/
def lookupAssoc {β : Type} : List (String × β) → String → Option β
  | [], _ => none
  | (k', v) :: rest, k => if k = k' then some v else lookupAssoc rest k

/-- Python-dict-style update of the first entry with the given key; identity
when the key is absent (mirroring `if current_subfolder in human_data['subfolders']`). -/
def updateSF (name : String) (f : SubfolderData → SubfolderData) :
    List (String × SubfolderData) → List (String × SubfolderData)
  | [] => []
  | (k, sf) :: rest =>
      if k = name then (k, f sf) :: rest else (k, sf) :: updateSF name f rest

def initState (keys : List String) : AggState :=
  { subfolders := keys.map (fun k => (k, emptySubfolder))
    all_folders := [], all_files_by_type := []
    total_folders := 0, total_files := 0 }

/-- The body of the `os.walk` loop (lines 107-166) for one record: bump the
global counters, append to `all_folders`, merge the per-file extension
bumps into `all_files_by_type`, and — when the record is not the root and
its first path segment names a known main subfolder — fold it into that
subfolder's accumulator. -/
def consume (st : AggState) (r : FolderRecord) : AggState :=
  let st' : AggState :=
    { st with
      total_folders := st.total_folders + 1
      total_files := st.total_files + r.num_files
      all_files_by_type := mergeCounter st.all_files_by_type r.file_types
      all_folders := st.all_folders ++ [r] }
  match r.path with
  | [] => st'
  | h :: _ => { st' with subfolders := updateSF h (fun sf => addRecord sf r) st'.subfolders }

def aggregate (keys : List String) (rs : List FolderRecord) : AggState :=
  rs.foldl consume (initState keys)

/-- `scan_human_folder_complete`: enumerate the root's immediate child
directories, walk the whole tree, and fold every record into the
accumulators. -/
def scan_human_folder_complete (t : Tree) : AggState :=
  aggregate (childNames t) (walkTree t [])

/-- The `human_data['overview']` block (lines 172-181). -/
structure Overview : Type where
  total_folders : Nat
  total_files : Nat
  main_subfolders : Nat
  total_dicom : Nat
  total_dat : Nat
  total_nifti : Nat
  max_depth : Nat
deriving DecidableEq, Repr

/-- Lines 172-181: global sums over `all_folders`; `max_depth` is
`max(depths)` for a non-empty list and `0` otherwise, which is
`foldr max 0` over `Nat`. -/
def overviewOf (mainCount : Nat) (st : AggState) : Overview :=
  { total_folders := st.total_folders
    total_files := st.total_files
    main_subfolders := mainCount
    total_dicom := (st.all_folders.map (·.dicom_files)).sum
    total_dat := (st.all_folders.map (·.dat_files)).sum
    total_nifti := (st.all_folders.map (·.nifti_files)).sum
    max_depth := (st.all_folders.map (·.depth)).foldr max 0 }

/-- The overview of a complete scan. -/
def scanOverview (t : Tree) : Overview :=
  overviewOf (childNames t).length (scan_human_folder_complete t)

/-- Whether a record's first path segment is `k` (group membership,
lines 115-121: records with no segments — the root — belong to no group). -/
def headIs (k : String) (r : FolderRecord) : Bool :=
  match r.path with
  | [] => false
  | h :: _ => decide (h = k)

/-! ### Per-subject aggregation and status (`create_subfolder_sheet`, lines 245-272) -/

/-- `subject_ext_counts[subject] += folder['file_types']` on a
`defaultdict(Counter)`: first-match update, appending a fresh subject entry
on first encounter. -/
def addToSubject (subj : String) (ft : List (String × Nat)) :
    List (String × List (String × Nat)) → List (String × List (String × Nat))
  | [] => [(subj, mergeCounter [] ft)]
  | (k, c) :: rest =>
      if k = subj then (k, mergeCounter c ft) :: rest
      else (k, c) :: addToSubject subj ft rest

/-- Lines 246-258: aggregate extension counts per subject (the second path
segment) across a main subfolder's `folder_details`; records with fewer
than two segments contribute to no subject. -/
def subjectExtCounts (details : List FolderRecord) :
    List (String × List (String × Nat)) :=
  details.foldl
    (fun acc r =>
      match r.path with
      | _ :: subj :: _ => addToSubject subj r.file_types acc
      | _ => acc)
    []

/-- Whether a record's second path segment is `s` (subject membership). -/
def secondIs (s : String) (r : FolderRecord) : Bool :=
  match r.path with
  | _ :: s' :: _ => decide (s' = s)
  | _ => false

/-- Dict lookup defaulting to the empty counter. -/
def getOrEmpty (acc : List (String × List (String × Nat))) (s : String) :
    List (String × Nat) :=
  (lookupAssoc acc s).getD []

/-! ### `Counter.most_common(20)` (File_Types ranking, lines 226-229) -/

/-- Insert into a count-descending list, keeping `x` after every
strictly-greater entry and before equal ones that came later — the
placement a stable descending sort gives an earlier-encountered entry. -/
def insertByCount (x : String × Nat) : List (String × Nat) → List (String × Nat)
  | [] => [x]
  | y :: ys => if y.2 > x.2 then y :: insertByCount x ys else x :: y :: ys

/-- Stable sort by count descending (Python's `sorted(..., key=count,
reverse=True)` is stable: ties keep insertion order). -/
def sortByCountDesc : List (String × Nat) → List (String × Nat)
  | [] => []
  | x :: xs => insertByCount x (sortByCountDesc xs)

/-- `Counter.most_common(20)`. -/
def most_common20 (c : List (String × Nat)) : List (String × Nat) :=
  (sortByCountDesc c).take 20

/-! ### Row ordering (`sort_values(['Depth', 'Relative_Path'])`) -/

/-- The `path` column / `Relative_Path` column: `os.path.relpath` output,
`'.'` for the root and the `os.sep`-joined segments otherwise. -/
def pathStr (r : FolderRecord) : String :=
  match r.path with
  | [] => "."
  | segs => String.intercalate "/" segs

/-- Strict (depth, path) lexicographic order on rows. -/
def rowLT (a b : FolderRecord) : Prop :=
  a.depth < b.depth ∨ (a.depth = b.depth ∧ pathStr a < pathStr b)

/-- Weak (depth, path) lexicographic order on rows: depth ascending, then
relative path ascending. -/
def rowLE (a b : FolderRecord) : Prop :=
  a.depth < b.depth ∨ (a.depth = b.depth ∧ pathStr a ≤ pathStr b)

instance : DecidableRel rowLT := fun a b => by
  unfold rowLT; infer_instance

instance : DecidableRel rowLE := fun a b => by
  unfold rowLE; infer_instance

/-- Insert a row into a `(Depth, Relative_Path)`-sorted list. -/
def insertRow (r : FolderRecord) : List FolderRecord → List FolderRecord
  | [] => [r]
  | x :: xs => if rowLT x r then x :: insertRow r xs else r :: x :: xs

/-- `df.sort_values(['Depth', 'Relative_Path'])` /
`sort_values(['depth', 'path'])`: sort rows by depth ascending, then
relative path lexicographically. -/
def sortRows : List FolderRecord → List FolderRecord
  | [] => []
  | r :: rs => insertRow r (sortRows rs)

/-- The row order of a per-main-subfolder sheet (line 310). -/
def groupTable (sf : SubfolderData) : List FolderRecord :=
  sortRows sf.folder_details

/-- The row order of the `All_Folders` sheet (line 359). -/
def allFoldersTable (st : AggState) : List FolderRecord :=
  sortRows st.all_folders

/-! ### The run (`main`, lines 368-415) -/

/-- The state of the root path as the filesystem presents it: missing
(`os.path.exists` false), present but unlistable (`os.listdir` raises —
e.g. a plain file or unreadable directory), or a readable directory. -/
inductive FsRoot : Type where
  | missing
  | unlistable
  | dir (t : Tree)

def osPathExists : FsRoot → Bool
  | .missing => false
  | _ => true

/-- `scan_human_folder_complete` seen from `main`: `None` when the initial
`os.listdir(human_root)` raises (lines 75-87), the full accumulators
otherwise. -/
def scanResult : FsRoot → Option AggState
  | .missing => none
  | .unlistable => none
  | .dir t => some (scan_human_folder_complete t)

/-- Everything the written workbook is assembled from (sheet layout and
cell formatting are presentation). -/
structure Report : Type where
  overview : Overview
  fileTypeRanking : List (String × Nat)
  groupSheets : List (String × List FolderRecord)
  allFolders : List FolderRecord
deriving Repr

def buildReport (keyCount : Nat) (st : AggState) : Report :=
  { overview := overviewOf keyCount st
    fileTypeRanking := most_common20 st.all_files_by_type
    groupSheets := st.subfolders.map (fun e => (e.1, groupTable e.2))
    allFolders := allFoldersTable st }

/-- `main` (lines 368-415): abort with no report if the root does not exist
(line 380) or the scan failed (line 386); otherwise write the workbook. -/
def mainRun (root : FsRoot) : Option Report :=
  if osPathExists root = false then none
  else
    match root with
    | .missing => none
    | .unlistable => none
    | .dir t => some (buildReport (childNames t).length (scan_human_folder_complete t))

/-! ### Concrete inputs used in witnesses and counterexamples -/

/-- Root holding one file and two groups `A`, `B`; `A` has a subject `S1`
with a `.dat` and a `.mat` file, `B` a subject `S2` with two `.ima` files
at depth 3. -/
def demoTree : Tree :=
  .node ["root.txt"]
    [("A", .node [] [("S1", .node ["a.dat", "b.mat"] [])]),
     ("B", .node [] [("S2", .node [] [("deep", .node ["x.ima", "y.IMA"] [])])])]

/-- A root with one direct file and one empty group. -/
def tinyTree : Tree :=
  .node ["f.txt"] [("A", .node [] [])]

/-- A record of the demo scan, used to exercise permutation invariance. -/
def recA : FolderRecord :=
  mkRecord ["A"] ["a.dat"] []

/-- A second record with the same group but different content. -/
def recB : FolderRecord :=
  mkRecord ["A", "S1"] ["b.mat", "c.nii.gz"] []

/-- A root-level record (`rel_path == '.'`). -/
def recRoot : FolderRecord :=
  mkRecord [] ["r.txt"] [("A", .node [] [])]

/-- A record whose first segment matches no enumerated group. -/
def recStray : FolderRecord :=
  mkRecord ["ZZ"] ["z.dat"] []

/-- The accumulated data of group `A` of the demo scan. -/
def demoSfA : SubfolderData :=
  (lookupAssoc (scan_human_folder_complete demoTree).subfolders "A").getD emptySubfolder

/-- The aggregated extension counter of subject `S1` of the demo scan. -/
def demoSubjS1 : List (String × Nat) :=
  (lookupAssoc (subjectExtCounts demoSfA.folder_details) "S1").getD []

/-! ## Theorems -/

/-! ### Counter lemmas -/


theorem sumKey_bumpBy {α : Type} [DecidableEq α] (c : List (α × Nat)) (k : α) (n : Nat)
    (k' : α) : sumKey (bumpBy c k n) k' = sumKey c k' + (if k' = k then n else 0) := by
  induction c with
  | nil => simp [bumpBy, sumKey]
  | cons e rest ih =>
      obtain ⟨k0, m⟩ := e
      by_cases h : k = k0
      · subst h
        simp only [bumpBy, if_pos rfl, sumKey]
        by_cases h' : k' = k <;> simp [h'] <;> try omega
      · simp only [bumpBy, if_neg h, sumKey, ih]
        omega

theorem counterTotal_bumpBy {α : Type} [DecidableEq α] (c : List (α × Nat)) (k : α) (n : Nat) :
    counterTotal (bumpBy c k n) = counterTotal c + n := by
  induction c with
  | nil => simp [bumpBy, counterTotal]
  | cons e rest ih =>
      obtain ⟨k0, m⟩ := e
      by_cases h : k = k0
      · subst h; simp [bumpBy, counterTotal]; omega
      · simp only [bumpBy, if_neg h, counterTotal, List.map_cons, List.sum_cons] at *
        omega

theorem sumKey_mergeCounter {α : Type} [DecidableEq α] (g c : List (α × Nat)) (k : α) :
    sumKey (mergeCounter g c) k = sumKey g k + sumKey c k := by
  induction c generalizing g with
  | nil => simp [mergeCounter, sumKey]
  | cons e rest ih =>
      obtain ⟨k0, n⟩ := e
      simp only [mergeCounter, List.foldl_cons] at *
      rw [ih (bumpBy g k0 n), sumKey_bumpBy]
      simp only [sumKey]
      omega

theorem counterTotal_mergeCounter {α : Type} [DecidableEq α] (g c : List (α × Nat)) :
    counterTotal (mergeCounter g c) = counterTotal g + counterTotal c := by
  induction c generalizing g with
  | nil => simp [mergeCounter, counterTotal]
  | cons e rest ih =>
      obtain ⟨k0, n⟩ := e
      simp only [mergeCounter, List.foldl_cons] at *
      rw [ih (bumpBy g k0 n), counterTotal_bumpBy]
      simp [counterTotal]
      omega

/-! ### Step lemmas for `consume` and `updateSF` -/

theorem consume_all_folders (st : AggState) (r : FolderRecord) :
    (consume st r).all_folders = st.all_folders ++ [r] := by
  unfold consume
  cases r.path <;> rfl

theorem consume_total_folders (st : AggState) (r : FolderRecord) :
    (consume st r).total_folders = st.total_folders + 1 := by
  unfold consume
  cases r.path <;> rfl

theorem consume_total_files (st : AggState) (r : FolderRecord) :
    (consume st r).total_files = st.total_files + r.num_files := by
  unfold consume
  cases r.path <;> rfl

theorem consume_abt (st : AggState) (r : FolderRecord) :
    (consume st r).all_files_by_type = mergeCounter st.all_files_by_type r.file_types := by
  unfold consume
  cases r.path <;> rfl

theorem consume_subfolders_root (st : AggState) (r : FolderRecord) (h : r.path = []) :
    (consume st r).subfolders = st.subfolders := by
  unfold consume
  rw [h]

theorem consume_subfolders_cons (st : AggState) (r : FolderRecord) (h : String)
    (tl : List String) (hp : r.path = h :: tl) :
    (consume st r).subfolders = updateSF h (fun sf => addRecord sf r) st.subfolders := by
  unfold consume
  rw [hp]

theorem updateSF_keys (name : String) (f : SubfolderData → SubfolderData)
    (l : List (String × SubfolderData)) :
    (updateSF name f l).map Prod.fst = l.map Prod.fst := by
  induction l with
  | nil => rfl
  | cons e rest ih =>
      obtain ⟨k, sf⟩ := e
      by_cases h : k = name <;> simp [updateSF, h, ih]

theorem lookupAssoc_updateSF_self (name : String) (f : SubfolderData → SubfolderData)
    (l : List (String × SubfolderData)) :
    lookupAssoc (updateSF name f l) name = (lookupAssoc l name).map f := by
  induction l with
  | nil => rfl
  | cons e rest ih =>
      obtain ⟨k, sf⟩ := e
      by_cases h : k = name
      · subst h
        simp [updateSF, lookupAssoc]
      · have h' : ¬ name = k := fun hh => h hh.symm
        simp [updateSF, lookupAssoc, h, h', ih]

theorem lookupAssoc_updateSF_ne (name k : String) (f : SubfolderData → SubfolderData)
    (l : List (String × SubfolderData)) (hk : k ≠ name) :
    lookupAssoc (updateSF name f l) k = lookupAssoc l k := by
  induction l with
  | nil => rfl
  | cons e rest ih =>
      obtain ⟨k0, sf⟩ := e
      by_cases h : k0 = name
      · subst h
        simp [updateSF, lookupAssoc, hk, ih]
      · by_cases h2 : k = k0 <;> simp [updateSF, lookupAssoc, h, h2, ih]

theorem updateSF_absent (name : String) (f : SubfolderData → SubfolderData)
    (l : List (String × SubfolderData)) (h : name ∉ l.map Prod.fst) :
    updateSF name f l = l := by
  induction l with
  | nil => rfl
  | cons e rest ih =>
      obtain ⟨k, sf⟩ := e
      simp only [List.map_cons, List.mem_cons] at h
      push_neg at h
      have hk : k ≠ name := fun hh => h.1 hh.symm
      simp [updateSF, hk, ih h.2]

/-! ### Characterizations of the aggregation fold -/

theorem foldl_consume_all_folders (rs : List FolderRecord) (st : AggState) :
    (rs.foldl consume st).all_folders = st.all_folders ++ rs := by
  induction rs generalizing st with
  | nil => simp
  | cons r rs ih =>
      simp only [List.foldl_cons, ih, consume_all_folders, List.append_assoc,
        List.singleton_append]

theorem foldl_consume_total_folders (rs : List FolderRecord) (st : AggState) :
    (rs.foldl consume st).total_folders = st.total_folders + rs.length := by
  induction rs generalizing st with
  | nil => simp
  | cons r rs ih =>
      simp only [List.foldl_cons, ih, consume_total_folders, List.length_cons]
      omega

theorem foldl_consume_total_files (rs : List FolderRecord) (st : AggState) :
    (rs.foldl consume st).total_files = st.total_files + (rs.map (·.num_files)).sum := by
  induction rs generalizing st with
  | nil => simp
  | cons r rs ih =>
      simp only [List.foldl_cons, ih, consume_total_files, List.map_cons, List.sum_cons]
      omega

theorem foldl_consume_abt (rs : List FolderRecord) (st : AggState) (k : String) :
    sumKey (rs.foldl consume st).all_files_by_type k =
      sumKey st.all_files_by_type k + (rs.map (fun r => sumKey r.file_types k)).sum := by
  induction rs generalizing st with
  | nil => simp
  | cons r rs ih =>
      simp only [List.foldl_cons, ih, consume_abt, sumKey_mergeCounter, List.map_cons,
        List.sum_cons]
      omega

theorem foldl_consume_keys (rs : List FolderRecord) (st : AggState) :
    (rs.foldl consume st).subfolders.map Prod.fst = st.subfolders.map Prod.fst := by
  induction rs generalizing st with
  | nil => rfl
  | cons r rs ih =>
      rw [List.foldl_cons, ih]
      cases hp : r.path with
      | nil => rw [consume_subfolders_root st r hp]
      | cons h tl => rw [consume_subfolders_cons st r h tl hp, updateSF_keys]

theorem foldl_consume_lookup (rs : List FolderRecord) (st : AggState) (name : String) :
    lookupAssoc (rs.foldl consume st).subfolders name =
      (lookupAssoc st.subfolders name).map
        (fun sf => (rs.filter (fun r => headIs name r)).foldl addRecord sf) := by
  induction rs generalizing st with
  | nil =>
      simp only [List.foldl_nil, List.filter_nil]
      cases lookupAssoc st.subfolders name <;> rfl
  | cons r rs ih =>
      rw [List.foldl_cons, ih]
      cases hp : r.path with
      | nil =>
          rw [consume_subfolders_root st r hp]
          have hh : headIs name r = false := by simp [headIs, hp]
          simp only [List.filter_cons, hh]
          simp
      | cons h tl =>
          rw [consume_subfolders_cons st r h tl hp]
          by_cases he : h = name
          · subst he
            have hh : headIs h r = true := by simp [headIs, hp]
            rw [lookupAssoc_updateSF_self]
            simp only [List.filter_cons, hh, if_pos]
            cases lookupAssoc st.subfolders h <;> simp [List.foldl_cons]
          · have hne : name ≠ h := fun hh => he hh.symm
            have hh : headIs name r = false := by simp [headIs, hp, he]
            rw [lookupAssoc_updateSF_ne h name _ _ hne]
            simp only [List.filter_cons, hh]
            simp

/-! ### Characterizations of the per-subfolder fold -/

theorem foldl_addRecord_details (l : List FolderRecord) (sf : SubfolderData) :
    (l.foldl addRecord sf).folder_details = sf.folder_details ++ l := by
  induction l generalizing sf with
  | nil => simp
  | cons r rs ih => simp [List.foldl_cons, ih, addRecord]

theorem foldl_addRecord_total_folders (l : List FolderRecord) (sf : SubfolderData) :
    (l.foldl addRecord sf).total_folders = sf.total_folders + l.length := by
  induction l generalizing sf with
  | nil => simp
  | cons r rs ih =>
      simp only [List.foldl_cons, ih, addRecord, List.length_cons]
      omega

theorem foldl_addRecord_total_files (l : List FolderRecord) (sf : SubfolderData) :
    (l.foldl addRecord sf).total_files = sf.total_files + (l.map (·.num_files)).sum := by
  induction l generalizing sf with
  | nil => simp
  | cons r rs ih =>
      simp only [List.foldl_cons, ih, addRecord, List.map_cons, List.sum_cons]
      omega

theorem foldl_addRecord_dicom (l : List FolderRecord) (sf : SubfolderData) :
    (l.foldl addRecord sf).dicom_files = sf.dicom_files + (l.map (·.dicom_files)).sum := by
  induction l generalizing sf with
  | nil => simp
  | cons r rs ih =>
      simp only [List.foldl_cons, ih, addRecord, List.map_cons, List.sum_cons]
      omega

theorem foldl_addRecord_dat (l : List FolderRecord) (sf : SubfolderData) :
    (l.foldl addRecord sf).dat_files = sf.dat_files + (l.map (·.dat_files)).sum := by
  induction l generalizing sf with
  | nil => simp
  | cons r rs ih =>
      simp only [List.foldl_cons, ih, addRecord, List.map_cons, List.sum_cons]
      omega

theorem foldl_addRecord_file_counts (l : List FolderRecord) (sf : SubfolderData)
    (k : String) :
    sumKey (l.foldl addRecord sf).file_counts k =
      sumKey sf.file_counts k + (l.map (fun r => sumKey r.file_types k)).sum := by
  induction l generalizing sf with
  | nil => simp
  | cons r rs ih =>
      simp only [List.foldl_cons, ih, addRecord, sumKey_mergeCounter, List.map_cons,
        List.sum_cons]
      omega

theorem foldl_addRecord_file_counts_total (l : List FolderRecord) (sf : SubfolderData) :
    counterTotal (l.foldl addRecord sf).file_counts =
      counterTotal sf.file_counts + (l.map (fun r => counterTotal r.file_types)).sum := by
  induction l generalizing sf with
  | nil => simp
  | cons r rs ih =>
      simp only [List.foldl_cons, ih, addRecord, counterTotal_mergeCounter, List.map_cons,
        List.sum_cons]
      omega

theorem foldl_addRecord_depth_counts (l : List FolderRecord) (sf : SubfolderData)
    (d : Nat) :
    sumKey (l.foldl addRecord sf).depth_counts d =
      sumKey sf.depth_counts d + l.countP (fun r => decide (r.depth = d)) := by
  induction l generalizing sf with
  | nil => simp
  | cons r rs ih =>
      simp only [List.foldl_cons, ih, addRecord, sumKey_bumpBy, List.countP_cons]
      by_cases h : r.depth = d
      · simp [h]
        omega
      · have h' : ¬ d = r.depth := fun hh => h hh.symm
        simp [h, h']

/-! ### Entry-wise characterization of the subfolder map (distinct keys) -/

theorem map_update_absent (name : String) (f : SubfolderData → SubfolderData)
    (l : List (String × SubfolderData)) (h : name ∉ l.map Prod.fst) :
    l.map (fun e => (e.1, if e.1 = name then f e.2 else e.2)) = l := by
  induction l with
  | nil => rfl
  | cons e rest ih =>
      obtain ⟨k, sf⟩ := e
      simp only [List.map_cons, List.mem_cons] at h
      push_neg at h
      have hk : k ≠ name := fun hh => h.1 hh.symm
      simp [hk, ih h.2]

theorem updateSF_map_form (name : String) (f : SubfolderData → SubfolderData)
    (l : List (String × SubfolderData)) (hnd : (l.map Prod.fst).Nodup) :
    updateSF name f l = l.map (fun e => (e.1, if e.1 = name then f e.2 else e.2)) := by
  induction l with
  | nil => rfl
  | cons e rest ih =>
      obtain ⟨k, sf⟩ := e
      simp only [List.map_cons, List.nodup_cons] at hnd
      by_cases h : k = name
      · subst h
        simp [updateSF, map_update_absent _ f rest hnd.1]
      · simp [updateSF, h, ih hnd.2]

theorem foldl_consume_subfolders (rs : List FolderRecord) (st : AggState)
    (hnd : (st.subfolders.map Prod.fst).Nodup) :
    (rs.foldl consume st).subfolders =
      st.subfolders.map
        (fun e => (e.1, (rs.filter (fun r => headIs e.1 r)).foldl addRecord e.2)) := by
  induction rs generalizing st with
  | nil => simp
  | cons r rs ih =>
      rw [List.foldl_cons]
      have hkeys : ((consume st r).subfolders.map Prod.fst).Nodup := by
        cases hp : r.path with
        | nil => rw [consume_subfolders_root st r hp]; exact hnd
        | cons h tl => rw [consume_subfolders_cons st r h tl hp, updateSF_keys]; exact hnd
      rw [ih (consume st r) hkeys]
      cases hp : r.path with
      | nil =>
          rw [consume_subfolders_root st r hp]
          refine List.map_congr_left (fun e he => ?_)
          have hh : headIs e.1 r = false := by simp [headIs, hp]
          simp [List.filter_cons, hh]
      | cons h tl =>
          rw [consume_subfolders_cons st r h tl hp, updateSF_map_form _ _ _ hnd,
            List.map_map]
          refine List.map_congr_left (fun e he => ?_)
          simp only [Function.comp_apply]
          by_cases hk : e.1 = h
          · have hh : headIs h r = true := by simp [headIs, hp]
            simp [List.filter_cons, hh, hk, List.foldl_cons]
          · have hh : headIs e.1 r = false := by
              simp [headIs, hp]
              exact fun hc => hk hc.symm
            simp [List.filter_cons, hh, hk]

/-! ### Properties of the walk -/

theorem counterTotal_buildFileTypes_aux (files : List String) (c : List (String × Nat)) :
    counterTotal (files.foldl (fun c f => bumpBy c (extLower f) 1) c) =
      counterTotal c + files.length := by
  induction files generalizing c with
  | nil => simp
  | cons f fs ih =>
      simp only [List.foldl_cons, ih, counterTotal_bumpBy, List.length_cons]
      omega

/-- Every file contributes exactly one unit to the `file_types` counter:
the counter's values sum to the number of files. -/
theorem counterTotal_buildFileTypes (files : List String) :
    counterTotal (buildFileTypes files) = files.length := by
  simpa [buildFileTypes, counterTotal] using counterTotal_buildFileTypes_aux files []

mutual

theorem walkTree_mem : ∀ (t : Tree) (rel : List String) (r : FolderRecord),
    r ∈ walkTree t rel →
    (∃ suf, r.path = rel ++ suf) ∧ ∃ rel' fs sds, r = mkRecord rel' fs sds
  | .node files sds, rel, r, h => by
      rw [walkTree] at h
      rcases List.mem_cons.mp h with h1 | h2
      · exact ⟨⟨[], by simp [h1, mkRecord]⟩, rel, files, sds, h1⟩
      · obtain ⟨⟨n, _, suf, hp⟩, hmk⟩ := walkSub_mem sds rel r h2
        exact ⟨⟨n :: suf, hp⟩, hmk⟩

theorem walkSub_mem : ∀ (sds : List (String × Tree)) (rel : List String)
    (r : FolderRecord), r ∈ walkSub sds rel →
    (∃ n, n ∈ sds.map Prod.fst ∧ ∃ suf, r.path = rel ++ n :: suf) ∧
      ∃ rel' fs sds', r = mkRecord rel' fs sds'
  | (n, t) :: rest, rel, r, h => by
      rw [walkSub] at h
      rcases List.mem_append.mp h with h1 | h2
      · obtain ⟨⟨suf, hp⟩, hmk⟩ := walkTree_mem t (rel ++ [n]) r h1
        refine ⟨⟨n, by simp, suf, ?_⟩, hmk⟩
        simpa using hp
      · obtain ⟨⟨m, hm, suf, hp⟩, hmk⟩ := walkSub_mem rest rel r h2
        exact ⟨⟨m, by simp [List.mem_cons]; right; simpa using hm, suf, hp⟩, hmk⟩

end

/-- Every record the walker produces has coherent counters: the values of
its `file_types` sum to its `num_files`. -/
theorem walk_record_coherent (t : Tree) (rel : List String) (r : FolderRecord)
    (h : r ∈ walkTree t rel) : counterTotal r.file_types = r.num_files := by
  obtain ⟨_, rel', fs, sds, rfl⟩ := walkTree_mem t rel r h
  simpa [mkRecord] using counterTotal_buildFileTypes fs

/-! ### Arithmetic helpers -/

theorem sum_map_add_nat {α : Type} (l : List α) (f g : α → Nat) :
    (l.map (fun x => f x + g x)).sum = (l.map f).sum + (l.map g).sum := by
  induction l with
  | nil => simp
  | cons a l ih =>
      simp only [List.map_cons, List.sum_cons, ih]
      omega

theorem sum_map_one {α : Type} (l : List α) :
    (l.map (fun _ => (1 : Nat))).sum = l.length := by
  induction l with
  | nil => simp
  | cons a l ih =>
      simp only [List.map_cons, List.sum_cons, ih, List.length_cons]
      omega

theorem sum_if_absent (keys : List String) (h : String) (a : Nat)
    (hk : h ∉ keys) : (keys.map (fun k => if h = k then a else 0)).sum = 0 := by
  induction keys with
  | nil => simp
  | cons k0 rest ih =>
      simp only [List.mem_cons] at hk
      push_neg at hk
      simp [hk.1, ih hk.2]

theorem sum_if_single (keys : List String) (h : String) (a : Nat)
    (hmem : h ∈ keys) (hnd : keys.Nodup) :
    (keys.map (fun k => if h = k then a else 0)).sum = a := by
  induction keys with
  | nil => simp at hmem
  | cons k0 rest ih =>
      simp only [List.nodup_cons] at hnd
      rcases List.mem_cons.mp hmem with rfl | hmem'
      · simp [sum_if_absent rest h a hnd.1]
      · have hne : h ≠ k0 := fun hh => by subst hh; exact hnd.1 hmem'
        simp [hne, ih hmem' hnd.2]

/-- Partitioning a sum over records by their first path segment: when every
record's first segment lies in a duplicate-free key list, summing a value
per key over the records of that key recovers the total sum. -/
theorem sum_filter_partition (keys : List String) (hnd : keys.Nodup)
    (rs : List FolderRecord) (v : FolderRecord → Nat)
    (hall : ∀ r ∈ rs, ∃ h tl, r.path = h :: tl ∧ h ∈ keys) :
    (keys.map (fun k => ((rs.filter (fun r => headIs k r)).map v).sum)).sum =
      (rs.map v).sum := by
  induction rs with
  | nil => simp
  | cons r rs ih =>
      obtain ⟨h, tl, hp, hmem⟩ := hall r (List.mem_cons_self r rs)
      have step : ∀ k, ((r :: rs).filter (fun x => headIs k x)).map v =
          (if h = k then [v r] else []) ++ (rs.filter (fun x => headIs k x)).map v := by
        intro k
        by_cases hk : h = k
        · have hh : headIs k r = true := by simp [headIs, hp, hk]
          simp [List.filter_cons, hh, hk]
        · have hh : headIs k r = false := by
            simp [headIs, hp]
            exact fun hc => hk hc
          simp [List.filter_cons, hh, hk]
      have expand : (keys.map (fun k => (((r :: rs).filter (fun x => headIs k x)).map v).sum)) =
          keys.map (fun k => (if h = k then v r else 0) +
            ((rs.filter (fun x => headIs k x)).map v).sum) := by
        refine List.map_congr_left (fun k _ => ?_)
        rw [step k]
        by_cases hk : h = k <;> simp [hk]
      rw [expand, sum_map_add_nat, sum_if_single keys h (v r) hmem hnd,
        ih (fun x hx => hall x (List.mem_cons_of_mem r hx))]
      simp

/-! ### The stable count-descending sort behind `most_common` -/

theorem mem_insertByCount (x y : String × Nat) (l : List (String × Nat)) :
    y ∈ insertByCount x l ↔ y = x ∨ y ∈ l := by
  induction l with
  | nil => simp [insertByCount]
  | cons z zs ih =>
      by_cases hc : z.2 > x.2
      · simp only [insertByCount, if_pos hc, List.mem_cons, ih]
        tauto
      · simp only [insertByCount, if_neg hc, List.mem_cons]
        try tauto

theorem insertByCount_perm (x : String × Nat) (l : List (String × Nat)) :
    (insertByCount x l).Perm (x :: l) := by
  induction l with
  | nil => exact List.Perm.refl _
  | cons z zs ih =>
      by_cases hc : z.2 > x.2
      · simp only [insertByCount, if_pos hc]
        exact (ih.cons z).trans (List.Perm.swap x z zs)
      · simp only [insertByCount, if_neg hc]
        exact List.Perm.refl _

theorem sortByCountDesc_perm (l : List (String × Nat)) : (sortByCountDesc l).Perm l := by
  induction l with
  | nil => exact List.Perm.refl _
  | cons x xs ih =>
      exact (insertByCount_perm x (sortByCountDesc xs)).trans (ih.cons x)

theorem pairwise_insertByCount (x : String × Nat) (l : List (String × Nat))
    (h : l.Pairwise (fun a b => b.2 ≤ a.2)) :
    (insertByCount x l).Pairwise (fun a b => b.2 ≤ a.2) := by
  induction l with
  | nil => simp [insertByCount]
  | cons y ys ih =>
      rcases List.pairwise_cons.mp h with ⟨hy, hys⟩
      by_cases hc : y.2 > x.2
      · simp only [insertByCount, if_pos hc]
        refine List.pairwise_cons.mpr ⟨?_, ih hys⟩
        intro z hz
        rcases (mem_insertByCount x z ys).mp hz with rfl | hz'
        · omega
        · exact hy z hz'
      · simp only [insertByCount, if_neg hc]
        refine List.pairwise_cons.mpr ⟨?_, h⟩
        intro z hz
        rcases List.mem_cons.mp hz with rfl | hz'
        · omega
        · have := hy z hz'
          omega

theorem sortByCountDesc_sorted (l : List (String × Nat)) :
    (sortByCountDesc l).Pairwise (fun a b => b.2 ≤ a.2) := by
  induction l with
  | nil => simp [sortByCountDesc]
  | cons x xs ih => exact pairwise_insertByCount x (sortByCountDesc xs) ih

theorem filter_insertByCount_ne (x : String × Nat) (l : List (String × Nat)) (n : Nat)
    (hx : x.2 ≠ n) :
    (insertByCount x l).filter (fun e => decide (e.2 = n)) =
      l.filter (fun e => decide (e.2 = n)) := by
  induction l with
  | nil => simp [insertByCount, hx]
  | cons y ys ih =>
      by_cases hc : y.2 > x.2
      · simp only [insertByCount, if_pos hc, List.filter_cons, ih]
      · simp only [insertByCount, if_neg hc, List.filter_cons]
        simp [hx]

theorem filter_insertByCount_eq (x : String × Nat) (l : List (String × Nat)) (n : Nat)
    (hx : x.2 = n) :
    (insertByCount x l).filter (fun e => decide (e.2 = n)) =
      x :: l.filter (fun e => decide (e.2 = n)) := by
  induction l with
  | nil => simp [insertByCount, hx]
  | cons y ys ih =>
      by_cases hc : y.2 > x.2
      · have hy : ¬ y.2 = n := by omega
        simp only [insertByCount, if_pos hc, List.filter_cons, ih]
        simp [hy]
      · simp only [insertByCount, if_neg hc, List.filter_cons]
        simp [hx]

/-- Stability of the count-descending sort: entries of any fixed count
appear in the sorted output in exactly their input (first-encountered)
order. -/
theorem sortByCountDesc_stable (l : List (String × Nat)) (n : Nat) :
    (sortByCountDesc l).filter (fun e => decide (e.2 = n)) =
      l.filter (fun e => decide (e.2 = n)) := by
  induction l with
  | nil => rfl
  | cons x xs ih =>
      by_cases hx : x.2 = n
      · rw [show sortByCountDesc (x :: xs) = insertByCount x (sortByCountDesc xs) from rfl,
          filter_insertByCount_eq x _ n hx, ih, List.filter_cons]
        simp [hx]
      · rw [show sortByCountDesc (x :: xs) = insertByCount x (sortByCountDesc xs) from rfl,
          filter_insertByCount_ne x _ n hx, ih, List.filter_cons]
        simp [hx]

/-! ### The `(Depth, Relative_Path)` row order -/

theorem rowLE_of_not_rowLT (x r : FolderRecord) (h : ¬ rowLT x r) : rowLE r x := by
  unfold rowLT at h
  unfold rowLE
  by_cases hd : r.depth < x.depth
  · exact Or.inl hd
  · have hdd : ¬ x.depth < r.depth := fun hlt => h (Or.inl hlt)
    have heq : r.depth = x.depth := by omega
    refine Or.inr ⟨heq, ?_⟩
    by_contra hps
    exact h (Or.inr ⟨heq.symm, lt_of_not_le hps⟩)

theorem rowLE_of_rowLT (x r : FolderRecord) (h : rowLT x r) : rowLE x r := by
  unfold rowLT at h
  unfold rowLE
  rcases h with h | ⟨h1, h2⟩
  · exact Or.inl h
  · exact Or.inr ⟨h1, le_of_lt h2⟩

theorem rowLE_trans (a b c : FolderRecord) (h1 : rowLE a b) (h2 : rowLE b c) :
    rowLE a c := by
  unfold rowLE at *
  rcases h1 with h1 | ⟨h1, h1'⟩ <;> rcases h2 with h2 | ⟨h2, h2'⟩
  · exact Or.inl (h1.trans h2)
  · exact Or.inl (h2 ▸ h1)
  · exact Or.inl (h1 ▸ h2)
  · exact Or.inr ⟨h1.trans h2, h1'.trans h2'⟩

theorem rowLE_antisymm_path (a b : FolderRecord) (h1 : rowLE a b) (h2 : rowLE b a) :
    pathStr a = pathStr b := by
  unfold rowLE at *
  rcases h1 with h1 | ⟨h1, h1'⟩ <;> rcases h2 with h2 | ⟨h2, h2'⟩
  · omega
  · omega
  · omega
  · exact le_antisymm h1' h2'

theorem mem_insertRow (r y : FolderRecord) (l : List FolderRecord) :
    y ∈ insertRow r l ↔ y = r ∨ y ∈ l := by
  induction l with
  | nil => simp [insertRow]
  | cons z zs ih =>
      by_cases hc : rowLT z r
      · simp only [insertRow, if_pos hc, List.mem_cons, ih]
        tauto
      · simp only [insertRow, if_neg hc, List.mem_cons]
        try tauto

theorem insertRow_perm (r : FolderRecord) (l : List FolderRecord) :
    (insertRow r l).Perm (r :: l) := by
  induction l with
  | nil => exact List.Perm.refl _
  | cons z zs ih =>
      by_cases hc : rowLT z r
      · simp only [insertRow, if_pos hc]
        exact (ih.cons z).trans (List.Perm.swap r z zs)
      · simp only [insertRow, if_neg hc]
        exact List.Perm.refl _

theorem sortRows_perm (l : List FolderRecord) : (sortRows l).Perm l := by
  induction l with
  | nil => exact List.Perm.refl _
  | cons x xs ih => exact (insertRow_perm x (sortRows xs)).trans (ih.cons x)

theorem pairwise_insertRow (r : FolderRecord) (l : List FolderRecord)
    (h : l.Pairwise rowLE) : (insertRow r l).Pairwise rowLE := by
  induction l with
  | nil => simp [insertRow]
  | cons y ys ih =>
      rcases List.pairwise_cons.mp h with ⟨hy, hys⟩
      by_cases hc : rowLT y r
      · simp only [insertRow, if_pos hc]
        refine List.pairwise_cons.mpr ⟨?_, ih hys⟩
        intro z hz
        rcases (mem_insertRow r z ys).mp hz with rfl | hz'
        · exact rowLE_of_rowLT y z hc
        · exact hy z hz'
      · simp only [insertRow, if_neg hc]
        refine List.pairwise_cons.mpr ⟨?_, h⟩
        intro z hz
        rcases List.mem_cons.mp hz with rfl | hz'
        · exact rowLE_of_not_rowLT z r hc
        · exact rowLE_trans r y z (rowLE_of_not_rowLT y r hc) (hy z hz')

theorem sortRows_sorted (l : List FolderRecord) : (sortRows l).Pairwise rowLE := by
  induction l with
  | nil => simp [sortRows]
  | cons x xs ih => exact pairwise_insertRow x (sortRows xs) ih

/-- Two `(Depth, Relative_Path)`-sorted arrangements of the same records
coincide when the relative paths are pairwise distinct: the sorted order is
uniquely determined. -/
theorem sorted_rows_unique : ∀ (l₁ l₂ : List FolderRecord), l₁.Perm l₂ →
    l₁.Pairwise rowLE → l₂.Pairwise rowLE → (l₁.map pathStr).Nodup → l₁ = l₂
  | [], l₂, h, _, _, _ => h.nil_eq
  | a :: t₁, [], h, _, _, _ => by
      have := h.length_eq
      simp at this
  | a :: t₁, b :: t₂, h, hs₁, hs₂, hnd => by
      rw [List.map_cons, List.nodup_cons] at hnd
      have hab : a = b := by
        by_contra hab
        have ha2 : a ∈ b :: t₂ := h.mem_iff.mp (List.mem_cons_self a t₁)
        have hb1 : b ∈ a :: t₁ := h.mem_iff.mpr (List.mem_cons_self b t₂)
        have ha' : a ∈ t₂ := by
          rcases List.mem_cons.mp ha2 with h' | h'
          · exact absurd h' hab
          · exact h'
        have hb' : b ∈ t₁ := by
          rcases List.mem_cons.mp hb1 with h' | h'
          · exact absurd h'.symm hab
          · exact h'
        have hba : rowLE b a := (List.pairwise_cons.mp hs₂).1 a ha'
        have hab' : rowLE a b := (List.pairwise_cons.mp hs₁).1 b hb'
        have hpath : pathStr a = pathStr b := rowLE_antisymm_path a b hab' hba
        refine hnd.1 ?_
        rw [hpath]
        exact List.mem_map_of_mem pathStr hb'
      subst hab
      have ht : t₁.Perm t₂ := h.cons_inv
      have := sorted_rows_unique t₁ t₂ ht (List.pairwise_cons.mp hs₁).2
        (List.pairwise_cons.mp hs₂).2 hnd.2
      rw [this]

/-! ### `max` over depth lists -/

theorem le_foldr_max (l : List Nat) (x : Nat) (hx : x ∈ l) : x ≤ l.foldr max 0 := by
  induction l with
  | nil => simp at hx
  | cons a t ih =>
      rcases List.mem_cons.mp hx with rfl | hx'
      · simp [List.foldr_cons, le_max_iff]
      · simp only [List.foldr_cons, le_max_iff]
        exact Or.inr (ih hx')

theorem foldr_max_mem (l : List Nat) (h : l ≠ []) : l.foldr max 0 ∈ l := by
  induction l with
  | nil => exact absurd rfl h
  | cons a t ih =>
      by_cases ht : t = []
      · subst ht
        simp
      · have hmem := ih ht
        simp only [List.foldr_cons]
        rcases le_or_lt (t.foldr max 0) a with hle | hlt
        · rw [max_eq_left hle]
          exact List.mem_cons_self _ _
        · rw [max_eq_right (le_of_lt hlt)]
          exact List.mem_cons_of_mem a hmem

theorem foldr_max_perm (l l' : List Nat) (h : l.Perm l') :
    l.foldr max 0 = l'.foldr max 0 := by
  induction h with
  | nil => rfl
  | cons a _ ih => simp [List.foldr_cons, ih]
  | swap a b t =>
      simp only [List.foldr_cons]
      omega
  | trans _ _ ih1 ih2 => exact ih1.trans ih2

/-! ### Per-subject aggregation characterization -/

theorem lookupAssoc_addToSubject_self (s : String) (ft : List (String × Nat))
    (acc : List (String × List (String × Nat))) :
    lookupAssoc (addToSubject s ft acc) s = some (mergeCounter (getOrEmpty acc s) ft) := by
  induction acc with
  | nil => simp [addToSubject, lookupAssoc, getOrEmpty]
  | cons e rest ih =>
      obtain ⟨k, c⟩ := e
      by_cases h : k = s
      · subst h
        simp [addToSubject, lookupAssoc, getOrEmpty]
      · have h' : ¬ s = k := fun hh => h hh.symm
        simp [addToSubject, lookupAssoc, getOrEmpty, h, h', ih]

theorem lookupAssoc_addToSubject_ne (s s' : String) (ft : List (String × Nat))
    (acc : List (String × List (String × Nat))) (h : s' ≠ s) :
    lookupAssoc (addToSubject s ft acc) s' = lookupAssoc acc s' := by
  induction acc with
  | nil => simp [addToSubject, lookupAssoc, h]
  | cons e rest ih =>
      obtain ⟨k, c⟩ := e
      by_cases hk : k = s
      · subst hk
        simp [addToSubject, lookupAssoc, h, ih]
      · by_cases h2 : s' = k <;> simp [addToSubject, lookupAssoc, hk, h2, ih]

/-- The values of a subject's aggregated counter sum to the total of the
per-record counter totals of the records under that subject. -/
theorem subjectExtCounts_total (details : List FolderRecord)
    (acc : List (String × List (String × Nat))) (subj : String) :
    counterTotal (getOrEmpty
        (details.foldl
          (fun acc r =>
            match r.path with
            | _ :: s :: _ => addToSubject s r.file_types acc
            | _ => acc)
          acc) subj) =
      counterTotal (getOrEmpty acc subj) +
        ((details.filter (fun r => secondIs subj r)).map
          (fun r => counterTotal r.file_types)).sum := by
  induction details generalizing acc with
  | nil => simp
  | cons r rest ih =>
      rw [List.foldl_cons]
      cases hp : r.path with
      | nil =>
          have hs : secondIs subj r = false := by simp [secondIs, hp]
          simp only [hp, List.filter_cons, hs]
          exact ih acc
      | cons h1 tl =>
          cases tl with
          | nil =>
              have hs : secondIs subj r = false := by simp [secondIs, hp]
              simp only [hp, List.filter_cons, hs]
              exact ih acc
          | cons s tl' =>
              by_cases hsubj : s = subj
              · subst hsubj
                have hs : secondIs s r = true := by simp [secondIs, hp]
                simp only [hp, List.filter_cons, hs, if_pos]
                rw [ih (addToSubject s r.file_types acc)]
                have : getOrEmpty (addToSubject s r.file_types acc) s =
                    mergeCounter (getOrEmpty acc s) r.file_types := by
                  simp [getOrEmpty, lookupAssoc_addToSubject_self]
                rw [this, counterTotal_mergeCounter]
                simp only [List.map_cons, List.sum_cons]
                omega
              · have hs : secondIs subj r = false := by
                  simp [secondIs, hp]
                  exact fun hc => hsubj hc
                simp only [hp, List.filter_cons, hs]
                rw [ih (addToSubject s r.file_types acc)]
                have : getOrEmpty (addToSubject s r.file_types acc) subj =
                    getOrEmpty acc subj := by
                  simp [getOrEmpty,
                    lookupAssoc_addToSubject_ne s subj r.file_types acc
                      (fun hh => hsubj hh.symm)]
                rw [this]
                simp

/-! ## Claim theorems -/

/-- C2: the subject status classifier is a pure total function of the
triple `(mat_count, dat_count, ima_count)`: it returns Processed iff
`mat_count > 0` (checked first, taking precedence, regardless of the other
two values); otherwise Not Processed iff `dat_count > 0` or
`ima_count > 0`; otherwise Unknown — so exactly one of the three labels is
produced for every triple. -/
theorem claim_C2_subject_status_classifier :
    ∀ mat dat ima : Nat,
      (classifyStatus mat dat ima = SubjectStatus.processed ↔ 0 < mat) ∧
      (classifyStatus mat dat ima = SubjectStatus.notProcessed ↔
        (mat = 0 ∧ (0 < dat ∨ 0 < ima))) ∧
      (classifyStatus mat dat ima = SubjectStatus.unknown ↔
        (mat = 0 ∧ dat = 0 ∧ ima = 0)) ∧
      (statusOfCounter = fun cnts =>
        classifyStatus (lookupCount cnts ".mat") (lookupCount cnts ".dat")
          (lookupCount cnts ".ima")) := by
  intro mat dat ima
  refine ⟨?_, ?_, ?_, rfl⟩ <;>
    · unfold classifyStatus
      split_ifs with h1 h2 <;> simp <;> omega

/-- C3: the NIfTI predicate is pure and total and holds exactly when the
concatenation of all dot-separated suffixes, lowercased, ends with `.nii`
or `.nii.gz`; the five cited examples behave as stated, and a filename
with no extension (no dot at all) never matches. -/
theorem claim_C3_nifti_predicate :
    (∀ fname : String,
      is_nifti_filename fname = true ↔
        (".nii".data <:+ (joinedSuffixes fname.data).map Char.toLower ∨
         ".nii.gz".data <:+ (joinedSuffixes fname.data).map Char.toLower)) ∧
    is_nifti_filename "x.nii" = true ∧
    is_nifti_filename "x.NII.GZ" = true ∧
    is_nifti_filename "x.nii.gz" = true ∧
    is_nifti_filename "x.gz" = false ∧
    is_nifti_filename "x.niix" = false ∧
    (∀ fname : String, '.' ∉ fname.data → is_nifti_filename fname = false) := by
  refine ⟨?_, by decide, by decide, by decide, by decide, by decide, ?_⟩
  · intro fname
    unfold is_nifti_filename
    rw [Bool.or_eq_true, List.isSuffixOf_iff_suffix, List.isSuffixOf_iff_suffix]
  · intro fname hdot
    have hjoin : joinedSuffixes fname.data = [] := by
      unfold joinedSuffixes
      split_ifs with hlast
      · rfl
      · have hself : fname.data.dropWhile (fun c => c = '.') = fname.data := by
          cases hd : fname.data with
          | nil => rfl
          | cons c cs =>
              have hc : ¬ c = '.' := by
                intro hc
                exact hdot (hd ▸ (hc ▸ List.mem_cons_self c cs))
              simp [List.dropWhile_cons, hc]
        rw [hself]
        rw [List.dropWhile_eq_nil_iff]
        intro x hx
        simp only [ne_eq, decide_eq_true_eq]
        exact fun hxe => hdot (hxe ▸ hx)
    unfold is_nifti_filename
    rw [hjoin]
    rfl

/-- C3 witness: a dotless filename is rejected, via the claim theorem. -/
theorem claim_C3_witness : is_nifti_filename "nodots" = false :=
  claim_C3_nifti_predicate.2.2.2.2.2.2 "nodots" (by decide)

/-- C9: if the root path does not exist or cannot be listed, the run fails
before any scanning or aggregation output is produced — the scanner
reports the condition (`None`) and `main` writes no report, not even a
partial one; on a readable directory the full report is produced. -/
theorem claim_C9_root_failure_aborts :
    (∀ root : FsRoot, root = FsRoot.missing ∨ root = FsRoot.unlistable →
      scanResult root = none ∧ mainRun root = none) ∧
    (∀ t : Tree, mainRun (FsRoot.dir t) =
      some (buildReport (childNames t).length (scan_human_folder_complete t))) := by
  constructor
  · intro root h
    rcases h with rfl | rfl <;> exact ⟨rfl, rfl⟩
  · intro t
    rfl

/-- C9 witness: a missing root produces no report, via the claim theorem. -/
theorem claim_C9_witness :
    scanResult FsRoot.missing = none ∧ mainRun FsRoot.missing = none :=
  claim_C9_root_failure_aborts.1 FsRoot.missing (Or.inl rfl)

/-- C7: consuming one FolderRecord always bumps the global counters and
appends the record to `all_folders`; a root record (`path = []`) leaves
every group untouched; a record whose first segment matches no enumerated
group key is dropped from all per-group data while still counted globally;
otherwise exactly the group named by the first segment absorbs it. -/
theorem claim_C7_group_membership (st : AggState) (r : FolderRecord) :
    ((consume st r).total_folders = st.total_folders + 1 ∧
     (consume st r).total_files = st.total_files + r.num_files ∧
     (consume st r).all_folders = st.all_folders ++ [r]) ∧
    (r.path = [] → (consume st r).subfolders = st.subfolders) ∧
    (∀ h tl, r.path = h :: tl → h ∉ st.subfolders.map Prod.fst →
      (consume st r).subfolders = st.subfolders) ∧
    (∀ h tl sf, r.path = h :: tl → lookupAssoc st.subfolders h = some sf →
      lookupAssoc (consume st r).subfolders h = some (addRecord sf r) ∧
      ∀ k, k ≠ h → lookupAssoc (consume st r).subfolders k = lookupAssoc st.subfolders k) := by
  refine ⟨⟨consume_total_folders st r, consume_total_files st r, consume_all_folders st r⟩,
    ?_, ?_, ?_⟩
  · intro h
    exact consume_subfolders_root st r h
  · intro h tl hp habs
    rw [consume_subfolders_cons st r h tl hp]
    exact updateSF_absent h _ st.subfolders habs
  · intro h tl sf hp hlook
    rw [consume_subfolders_cons st r h tl hp]
    constructor
    · rw [lookupAssoc_updateSF_self, hlook]
      rfl
    · intro k hk
      exact lookupAssoc_updateSF_ne h k _ st.subfolders hk

/-- C7 witness: a stray record (group `ZZ` unknown) leaves the groups of a
one-group state untouched while the global folder counter still advances,
and a root record touches no group — via the claim theorem. -/
theorem claim_C7_witness :
    (consume (initState ["A"]) recStray).subfolders = (initState ["A"]).subfolders ∧
    (consume (initState ["A"]) recRoot).subfolders = (initState ["A"]).subfolders ∧
    (consume (initState ["A"]) recStray).total_folders =
      (initState ["A"]).total_folders + 1 :=
  ⟨(claim_C7_group_membership (initState ["A"]) recStray).2.2.1 "ZZ" [] rfl (by decide),
   (claim_C7_group_membership (initState ["A"]) recRoot).2.1 rfl,
   (claim_C7_group_membership (initState ["A"]) recStray).1.1⟩

/-- A count-descending sorted list is determined by its count classes:
two sorted lists whose per-count filters coincide are equal. -/
theorem sorted_classes_unique : ∀ (l₁ l₂ : List (String × Nat)),
    l₁.Pairwise (fun a b => b.2 ≤ a.2) → l₂.Pairwise (fun a b => b.2 ≤ a.2) →
    (∀ n, l₁.filter (fun e => decide (e.2 = n)) =
      l₂.filter (fun e => decide (e.2 = n))) →
    l₁ = l₂
  | [], [], _, _, _ => rfl
  | [], y :: t₂, _, _, hcl => by
      have h := hcl y.2
      simp [List.filter_cons] at h
  | x :: t₁, [], _, _, hcl => by
      have h := hcl x.2
      simp [List.filter_cons] at h
  | x :: t₁, y :: t₂, hs₁, hs₂, hcl => by
      have hfx : (x :: t₁).filter (fun e => decide (e.2 = x.2)) =
          x :: t₁.filter (fun e => decide (e.2 = x.2)) := by
        simp [List.filter_cons]
      have hfy : (y :: t₂).filter (fun e => decide (e.2 = y.2)) =
          y :: t₂.filter (fun e => decide (e.2 = y.2)) := by
        simp [List.filter_cons]
      have hxmem : x ∈ y :: t₂ := by
        have h1 : x ∈ (x :: t₁).filter (fun e => decide (e.2 = x.2)) := by
          rw [hfx]
          exact List.mem_cons_self _ _
        rw [hcl x.2] at h1
        exact (List.mem_filter.mp h1).1
      have hymem : y ∈ x :: t₁ := by
        have h1 : y ∈ (y :: t₂).filter (fun e => decide (e.2 = y.2)) := by
          rw [hfy]
          exact List.mem_cons_self _ _
        rw [← hcl y.2] at h1
        exact (List.mem_filter.mp h1).1
      have hxy : x = y := by
        by_contra hxy
        have hx' : x ∈ t₂ := by
          rcases List.mem_cons.mp hxmem with h | h
          · exact absurd h hxy
          · exact h
        have hy' : y ∈ t₁ := by
          rcases List.mem_cons.mp hymem with h | h
          · exact absurd h.symm hxy
          · exact h
        have h1 : x.2 ≤ y.2 := (List.pairwise_cons.mp hs₂).1 x hx'
        have h2 : y.2 ≤ x.2 := (List.pairwise_cons.mp hs₁).1 y hy'
        have heq : y.2 = x.2 := le_antisymm h2 h1
        have hfy2 : (y :: t₂).filter (fun e => decide (e.2 = x.2)) =
            y :: t₂.filter (fun e => decide (e.2 = x.2)) := by
          simp [List.filter_cons, heq]
        have h := hcl x.2
        rw [hfx, hfy2] at h
        exact hxy (List.head_eq_of_cons_eq h)
      subst hxy
      have hcl' : ∀ n, t₁.filter (fun e => decide (e.2 = n)) =
          t₂.filter (fun e => decide (e.2 = n)) := by
        intro n
        have h := hcl n
        rw [List.filter_cons, List.filter_cons] at h
        by_cases hn : x.2 = n
        · simp only [hn] at h
          simp at h
          exact h
        · simpa [hn] using h
      have := sorted_classes_unique t₁ t₂ (List.pairwise_cons.mp hs₁).2
        (List.pairwise_cons.mp hs₂).2 hcl'
      rw [this]

/-- C6: the global file-type ranking holds at most 20 `(extension, count)`
pairs, is ordered by count descending, is the 20-prefix of a stable
count-descending sort of the counter (so ties keep first-encountered
order: for every count value, the ranked entries of that count appear in
exactly their insertion order), and any two final counters with identical
per-count classes — identical counts with identical first-encounter order
among tied extensions — produce identical rankings. -/
theorem claim_C6_top20_ranking (c : List (String × Nat)) :
    (most_common20 c).length ≤ 20 ∧
    (most_common20 c).Pairwise (fun a b => b.2 ≤ a.2) ∧
    most_common20 c = (sortByCountDesc c).take 20 ∧
    (sortByCountDesc c).Perm c ∧
    (∀ n, (sortByCountDesc c).filter (fun e => decide (e.2 = n)) =
      c.filter (fun e => decide (e.2 = n))) ∧
    (∀ c', (∀ n, c.filter (fun e => decide (e.2 = n)) =
        c'.filter (fun e => decide (e.2 = n))) →
      most_common20 c = most_common20 c') := by
  refine ⟨?_, ?_, rfl, sortByCountDesc_perm c, sortByCountDesc_stable c, ?_⟩
  · unfold most_common20
    simpa using List.length_take_le 20 (sortByCountDesc c)
  · unfold most_common20
    exact (sortByCountDesc_sorted c).sublist (List.take_sublist 20 _)
  · intro c' hcl
    unfold most_common20
    have : sortByCountDesc c = sortByCountDesc c' := by
      refine sorted_classes_unique _ _ (sortByCountDesc_sorted c)
        (sortByCountDesc_sorted c') ?_
      intro n
      rw [sortByCountDesc_stable c n, sortByCountDesc_stable c' n]
      exact hcl n
    rw [this]

/-- C6 witness: two counters with equal counts and class order but
different global insertion order of non-tied entries get the same
ranking, via the claim theorem. -/
theorem claim_C6_witness :
    most_common20 [(".dcm", 2), (".dat", 1)] = most_common20 [(".dat", 1), (".dcm", 2)] :=
  (claim_C6_top20_ranking [(".dcm", 2), (".dat", 1)]).2.2.2.2.2 [(".dat", 1), (".dcm", 2)]
    (by
      intro n
      by_cases h1 : (2 : Nat) = n <;> by_cases h2 : (1 : Nat) = n <;>
        simp [List.filter_cons, h1, h2] <;> omega)

/-! ### Group data of a completed scan -/

theorem lookupAssoc_map_init (keys : List String) (name : String) :
    lookupAssoc (keys.map (fun k => (k, emptySubfolder))) name =
      if name ∈ keys then some emptySubfolder else none := by
  induction keys with
  | nil => simp [lookupAssoc]
  | cons k0 rest ih =>
      by_cases h : name = k0
      · subst h
        simp [lookupAssoc]
      · simp [lookupAssoc, h, ih, List.mem_cons]

/-- A looked-up group of a completed scan is exactly the fold of the
walk's records with that first segment, and its key was enumerated. -/
theorem scan_group_char (t : Tree) (name : String) (sf : SubfolderData)
    (h : lookupAssoc (scan_human_folder_complete t).subfolders name = some sf) :
    sf = ((walkTree t []).filter (fun r => headIs name r)).foldl addRecord emptySubfolder ∧
    name ∈ childNames t := by
  unfold scan_human_folder_complete aggregate at h
  rw [foldl_consume_lookup] at h
  rw [show (initState (childNames t)).subfolders =
    (childNames t).map (fun k => (k, emptySubfolder)) from rfl] at h
  rw [lookupAssoc_map_init] at h
  by_cases hmem : name ∈ childNames t
  · rw [if_pos hmem] at h
    simp only [Option.map_some'] at h
    cases h
    exact ⟨rfl, hmem⟩
  · rw [if_neg hmem] at h
    simp at h

/-- The structural invariants of any group of a completed scan. -/
theorem scan_group_invariants (t : Tree) (name : String) (sf : SubfolderData)
    (h : lookupAssoc (scan_human_folder_complete t).subfolders name = some sf) :
    sf.folder_details = (walkTree t []).filter (fun r => headIs name r) ∧
    sf.total_folders = sf.folder_details.length ∧
    sf.total_files = (sf.folder_details.map (·.num_files)).sum ∧
    sf.dicom_files = (sf.folder_details.map (·.dicom_files)).sum ∧
    sf.dat_files = (sf.folder_details.map (·.dat_files)).sum ∧
    (∀ k, sumKey sf.file_counts k =
      (sf.folder_details.map (fun r => sumKey r.file_types k)).sum) ∧
    (∀ d, sumKey sf.depth_counts d =
      sf.folder_details.countP (fun r => decide (r.depth = d))) ∧
    counterTotal sf.file_counts = sf.total_files := by
  obtain ⟨hsf, hmem⟩ := scan_group_char t name sf h
  have hdet : sf.folder_details = (walkTree t []).filter (fun r => headIs name r) := by
    rw [hsf, foldl_addRecord_details]
    rfl
  refine ⟨hdet, ?_, ?_, ?_, ?_, ?_, ?_, ?_⟩
  · rw [hdet, hsf, foldl_addRecord_total_folders]
    simp [emptySubfolder]
  · rw [hdet, hsf, foldl_addRecord_total_files]
    simp [emptySubfolder]
  · rw [hdet, hsf, foldl_addRecord_dicom]
    simp [emptySubfolder]
  · rw [hdet, hsf, foldl_addRecord_dat]
    simp [emptySubfolder]
  · intro k
    rw [hdet, hsf, foldl_addRecord_file_counts]
    simp [emptySubfolder, sumKey]
  · intro d
    rw [hdet, hsf, foldl_addRecord_depth_counts]
    simp [emptySubfolder, sumKey]
  · rw [hsf, foldl_addRecord_file_counts_total, foldl_addRecord_total_files]
    have hcong : ((walkTree t []).filter (fun r => headIs name r)).map
        (fun r => counterTotal r.file_types) =
        ((walkTree t []).filter (fun r => headIs name r)).map (fun r => r.num_files) := by
      refine List.map_congr_left (fun r hr => ?_)
      exact walk_record_coherent t [] r (List.mem_of_mem_filter hr)
    rw [hcong]
    simp [emptySubfolder, counterTotal]

/-- C4: in every completed scan, every TopLevelGroup satisfies
`total_folders = length folder_records`, and the values of its
`extension_counts` sum to `total_files`, which equals the sum of
`num_files` over its FolderRecords. -/
theorem claim_C4_group_invariants (t : Tree) (name : String) (sf : SubfolderData)
    (h : lookupAssoc (scan_human_folder_complete t).subfolders name = some sf) :
    sf.total_folders = sf.folder_details.length ∧
    counterTotal sf.file_counts = sf.total_files ∧
    sf.total_files = (sf.folder_details.map (·.num_files)).sum := by
  obtain ⟨_, h1, h2, _, _, _, _, h3⟩ := scan_group_invariants t name sf h
  exact ⟨h1, h3, h2⟩

/-- C4 witness: the invariants instantiated on group `A` of the demo scan,
via the claim theorem. -/
theorem claim_C4_witness :
    demoSfA.total_folders = demoSfA.folder_details.length ∧
    counterTotal demoSfA.file_counts = demoSfA.total_files ∧
    demoSfA.total_files = (demoSfA.folder_details.map (·.num_files)).sum :=
  claim_C4_group_invariants demoTree "A" demoSfA (by decide)

/-- C5: all final aggregate totals are invariant under permutation of the
FolderRecord sequence consumed by the aggregator: the whole Global
Overview (folder/file/dicom/dat/nifti totals and `max_depth`), the global
extension counter values, which groups exist, and every group's
`total_folders`, `total_files`, dicom/dat totals, `extension_counts`
values and `depth_histogram` values coincide for any two permutations of
the same records. -/
theorem claim_C5_permutation_invariance (keys : List String)
    (rs rs' : List FolderRecord) (hperm : rs.Perm rs') (n : Nat) :
    overviewOf n (aggregate keys rs) = overviewOf n (aggregate keys rs') ∧
    (∀ k, sumKey (aggregate keys rs).all_files_by_type k =
      sumKey (aggregate keys rs').all_files_by_type k) ∧
    (∀ name, (lookupAssoc (aggregate keys rs).subfolders name).isSome =
      (lookupAssoc (aggregate keys rs').subfolders name).isSome) ∧
    (∀ name sf sf',
      lookupAssoc (aggregate keys rs).subfolders name = some sf →
      lookupAssoc (aggregate keys rs').subfolders name = some sf' →
      sf.total_folders = sf'.total_folders ∧
      sf.total_files = sf'.total_files ∧
      sf.dicom_files = sf'.dicom_files ∧
      sf.dat_files = sf'.dat_files ∧
      (∀ k, sumKey sf.file_counts k = sumKey sf'.file_counts k) ∧
      (∀ d, sumKey sf.depth_counts d = sumKey sf'.depth_counts d)) := by
  have hall : (aggregate keys rs).all_folders = rs := by
    unfold aggregate
    rw [foldl_consume_all_folders]
    rfl
  have hall' : (aggregate keys rs').all_folders = rs' := by
    unfold aggregate
    rw [foldl_consume_all_folders]
    rfl
  refine ⟨?_, ?_, ?_, ?_⟩
  · unfold overviewOf
    rw [Overview.mk.injEq]
    refine ⟨?_, ?_, rfl, ?_, ?_, ?_, ?_⟩
    · unfold aggregate
      rw [foldl_consume_total_folders, foldl_consume_total_folders]
      rw [hperm.length_eq]
    · unfold aggregate
      rw [foldl_consume_total_files, foldl_consume_total_files]
      rw [(hperm.map (·.num_files)).sum_eq]
    · rw [hall, hall', (hperm.map (·.dicom_files)).sum_eq]
    · rw [hall, hall', (hperm.map (·.dat_files)).sum_eq]
    · rw [hall, hall', (hperm.map (·.nifti_files)).sum_eq]
    · rw [hall, hall']
      exact foldr_max_perm _ _ (hperm.map (·.depth))
  · intro k
    unfold aggregate
    rw [foldl_consume_abt, foldl_consume_abt,
      (hperm.map (fun r => sumKey r.file_types k)).sum_eq]
  · intro name
    unfold aggregate
    rw [foldl_consume_lookup, foldl_consume_lookup]
    cases lookupAssoc (initState keys).subfolders name <;> rfl
  · intro name sf sf' hsf hsf'
    unfold aggregate at hsf hsf'
    rw [foldl_consume_lookup] at hsf hsf'
    cases hinit : lookupAssoc (initState keys).subfolders name with
    | none =>
        rw [hinit] at hsf
        simp at hsf
    | some e =>
        rw [hinit] at hsf hsf'
        simp only [Option.map_some'] at hsf hsf'
        cases hsf
        cases hsf'
        have hpf := hperm.filter (fun r => headIs name r)
        refine ⟨?_, ?_, ?_, ?_, ?_, ?_⟩
        · rw [foldl_addRecord_total_folders, foldl_addRecord_total_folders,
            hpf.length_eq]
        · rw [foldl_addRecord_total_files, foldl_addRecord_total_files,
            (hpf.map (·.num_files)).sum_eq]
        · rw [foldl_addRecord_dicom, foldl_addRecord_dicom,
            (hpf.map (·.dicom_files)).sum_eq]
        · rw [foldl_addRecord_dat, foldl_addRecord_dat,
            (hpf.map (·.dat_files)).sum_eq]
        · intro k
          rw [foldl_addRecord_file_counts, foldl_addRecord_file_counts,
            (hpf.map (fun r => sumKey r.file_types k)).sum_eq]
        · intro d
          rw [foldl_addRecord_depth_counts, foldl_addRecord_depth_counts,
            hpf.countP_eq]

/-- C5 witness: the overview and the group-`A` totals agree for two
orders of the same two records, via the claim theorem. -/
theorem claim_C5_witness :
    overviewOf 1 (aggregate ["A"] [recA, recB]) =
      overviewOf 1 (aggregate ["A"] [recB, recA]) ∧
    (∀ k, sumKey (aggregate ["A"] [recA, recB]).all_files_by_type k =
      sumKey (aggregate ["A"] [recB, recA]).all_files_by_type k) :=
  ⟨(claim_C5_permutation_invariance ["A"] [recA, recB] [recB, recA]
      (List.Perm.swap recB recA []) 1).1,
   (claim_C5_permutation_invariance ["A"] [recA, recB] [recB, recA]
      (List.Perm.swap recB recA []) 1).2.1⟩

/-! ### Shape of the subfolder map of a completed scan -/

theorem initState_keys (keys : List String) :
    (initState keys).subfolders.map Prod.fst = keys := by
  show ((keys.map (fun k => (k, emptySubfolder))).map Prod.fst) = keys
  rw [List.map_map]
  have hcomp : Prod.fst ∘ (fun k : String => (k, emptySubfolder)) = id := rfl
  rw [hcomp, List.map_id]

theorem scan_subfolders_map (t : Tree) (hnd : (childNames t).Nodup) :
    (scan_human_folder_complete t).subfolders =
      (childNames t).map
        (fun k => (k, ((walkTree t []).filter (fun r => headIs k r)).foldl
          addRecord emptySubfolder)) := by
  unfold scan_human_folder_complete aggregate
  rw [foldl_consume_subfolders _ _ (by rw [initState_keys]; exact hnd)]
  rw [show (initState (childNames t)).subfolders =
    (childNames t).map (fun k => (k, emptySubfolder)) from rfl]
  rw [List.map_map]
  rfl

/-- The walk of any tree is its root record followed by the walk of its
subtrees. -/
theorem walkTree_unfold (t : Tree) :
    walkTree t [] = mkRecord [] t.files t.subdirs :: walkSub t.subdirs [] := by
  obtain ⟨fs, sds⟩ := t
  rfl

/-- Every record of the subtree walk names an enumerated child in its
first segment. -/
theorem walkSub_first_segment (t : Tree) :
    ∀ r ∈ walkSub t.subdirs [], ∃ h tl, r.path = h :: tl ∧ h ∈ childNames t := by
  intro r hr
  obtain ⟨⟨nm, hnm, suf, hp⟩, -⟩ := walkSub_mem t.subdirs [] r hr
  refine ⟨nm, suf, by simpa using hp, ?_⟩
  simpa [childNames] using hnm

/-- Summing one numeric field over all groups of a completed scan equals
summing the per-record contribution over every non-root walk record. -/
theorem scan_group_sum (t : Tree) (hnd : (childNames t).Nodup)
    (φ : SubfolderData → Nat) (ψ : FolderRecord → Nat)
    (hφ : ∀ l : List FolderRecord,
      φ (l.foldl addRecord emptySubfolder) = (l.map ψ).sum) :
    ((scan_human_folder_complete t).subfolders.map (fun e => φ e.2)).sum =
      ((walkSub t.subdirs []).map ψ).sum := by
  rw [scan_subfolders_map t hnd, List.map_map]
  have hcong : (childNames t).map
      ((fun e => φ e.2) ∘ (fun k => (k, ((walkTree t []).filter
        (fun r => headIs k r)).foldl addRecord emptySubfolder))) =
      (childNames t).map
        (fun k => (((walkSub t.subdirs []).filter (fun r => headIs k r)).map ψ).sum) := by
    refine List.map_congr_left (fun k _ => ?_)
    simp only [Function.comp_apply]
    rw [hφ, walkTree_unfold, List.filter_cons]
    rfl
  rw [hcong]
  exact sum_filter_partition (childNames t) hnd (walkSub t.subdirs []) ψ
    (walkSub_first_segment t)

/-- C1 counterexample: on a root holding one direct file and one empty
group, the Global Overview `total_folders` (which counts the root itself)
and `total_files` (which count the root's direct files) both exceed the
sums over all TopLevelGroups — so the claimed equalities fail. -/
theorem claim_C1_counterexample :
    ¬ ((scanOverview tinyTree).total_folders =
        ((scan_human_folder_complete tinyTree).subfolders.map
          (fun e => e.2.total_folders)).sum ∧
       (scanOverview tinyTree).total_files =
        ((scan_human_folder_complete tinyTree).subfolders.map
          (fun e => e.2.total_files)).sum) := by
  decide

/-- C1 (amended): in every completed scan whose root children carry
distinct names, each Global Overview total equals the sum of the
corresponding TopLevelGroup totals **plus the root FolderRecord's own
direct contribution** (`+ 1` folder for the root, plus its direct file /
dicom / dat counts); `max_depth` is the maximum depth observed across all
FolderRecords, and `main_subfolder_count` is the number of TopLevelGroups. -/
theorem claim_C1_amended_overview (t : Tree) (hnd : (childNames t).Nodup) :
    (scanOverview t).total_folders =
      ((scan_human_folder_complete t).subfolders.map
        (fun e => e.2.total_folders)).sum + 1 ∧
    (scanOverview t).total_files =
      ((scan_human_folder_complete t).subfolders.map
        (fun e => e.2.total_files)).sum + (mkRecord [] t.files t.subdirs).num_files ∧
    (scanOverview t).total_dicom =
      ((scan_human_folder_complete t).subfolders.map
        (fun e => e.2.dicom_files)).sum + (mkRecord [] t.files t.subdirs).dicom_files ∧
    (scanOverview t).total_dat =
      ((scan_human_folder_complete t).subfolders.map
        (fun e => e.2.dat_files)).sum + (mkRecord [] t.files t.subdirs).dat_files ∧
    (scanOverview t).main_subfolders = (scan_human_folder_complete t).subfolders.length ∧
    (∀ r ∈ (scan_human_folder_complete t).all_folders,
      r.depth ≤ (scanOverview t).max_depth) ∧
    (∃ r ∈ (scan_human_folder_complete t).all_folders,
      r.depth = (scanOverview t).max_depth) := by
  have hallf : (scan_human_folder_complete t).all_folders =
      mkRecord [] t.files t.subdirs :: walkSub t.subdirs [] := by
    unfold scan_human_folder_complete aggregate
    rw [foldl_consume_all_folders, ← walkTree_unfold]
    rfl
  refine ⟨?_, ?_, ?_, ?_, ?_, ?_, ?_⟩
  · have h2 : ((scan_human_folder_complete t).subfolders.map
        (fun e => e.2.total_folders)).sum =
        ((walkSub t.subdirs []).map (fun _ => (1 : Nat))).sum :=
      scan_group_sum t hnd (fun sf => sf.total_folders) (fun _ => 1)
        (fun l => by simp [foldl_addRecord_total_folders, sum_map_one, emptySubfolder])
    rw [sum_map_one] at h2
    have h1 : (scanOverview t).total_folders = (walkSub t.subdirs []).length + 1 := by
      show (scan_human_folder_complete t).total_folders = _
      unfold scan_human_folder_complete aggregate
      rw [foldl_consume_total_folders, walkTree_unfold]
      simp [initState]
    rw [h1, h2]
  · have h2 : ((scan_human_folder_complete t).subfolders.map
        (fun e => e.2.total_files)).sum =
        ((walkSub t.subdirs []).map (fun r => r.num_files)).sum :=
      scan_group_sum t hnd (fun sf => sf.total_files) (fun r => r.num_files)
        (fun l => by simp [foldl_addRecord_total_files, emptySubfolder])
    have h1 : (scanOverview t).total_files =
        (mkRecord [] t.files t.subdirs).num_files +
          ((walkSub t.subdirs []).map (fun r => r.num_files)).sum := by
      show (scan_human_folder_complete t).total_files = _
      unfold scan_human_folder_complete aggregate
      rw [foldl_consume_total_files, walkTree_unfold]
      simp only [List.map_cons, List.sum_cons, initState]
      omega
    rw [h1, h2]
    omega
  · have h2 : ((scan_human_folder_complete t).subfolders.map
        (fun e => e.2.dicom_files)).sum =
        ((walkSub t.subdirs []).map (fun r => r.dicom_files)).sum :=
      scan_group_sum t hnd (fun sf => sf.dicom_files) (fun r => r.dicom_files)
        (fun l => by simp [foldl_addRecord_dicom, emptySubfolder])
    have h1 : (scanOverview t).total_dicom =
        (mkRecord [] t.files t.subdirs).dicom_files +
          ((walkSub t.subdirs []).map (fun r => r.dicom_files)).sum := by
      show ((scan_human_folder_complete t).all_folders.map (·.dicom_files)).sum = _
      rw [hallf]
      simp only [List.map_cons, List.sum_cons]
    rw [h1, h2]
    omega
  · have h2 : ((scan_human_folder_complete t).subfolders.map
        (fun e => e.2.dat_files)).sum =
        ((walkSub t.subdirs []).map (fun r => r.dat_files)).sum :=
      scan_group_sum t hnd (fun sf => sf.dat_files) (fun r => r.dat_files)
        (fun l => by simp [foldl_addRecord_dat, emptySubfolder])
    have h1 : (scanOverview t).total_dat =
        (mkRecord [] t.files t.subdirs).dat_files +
          ((walkSub t.subdirs []).map (fun r => r.dat_files)).sum := by
      show ((scan_human_folder_complete t).all_folders.map (·.dat_files)).sum = _
      rw [hallf]
      simp only [List.map_cons, List.sum_cons]
    rw [h1, h2]
    omega
  · show (childNames t).length = _
    rw [scan_subfolders_map t hnd, List.length_map]
  · intro r hr
    show r.depth ≤ ((scan_human_folder_complete t).all_folders.map (·.depth)).foldr max 0
    exact le_foldr_max _ r.depth (List.mem_map_of_mem (·.depth) hr)
  · show ∃ r ∈ (scan_human_folder_complete t).all_folders,
      r.depth = ((scan_human_folder_complete t).all_folders.map (·.depth)).foldr max 0
    have hne : (scan_human_folder_complete t).all_folders.map (·.depth) ≠ [] := by
      rw [hallf]
      simp
    have hmem := foldr_max_mem _ hne
    obtain ⟨r, hr, hd⟩ := List.mem_map.mp hmem
    exact ⟨r, hr, hd⟩

/-- C1 witness: the amended relationship instantiated on the demo tree,
via the amended theorem. -/
theorem claim_C1_witness :
    (scanOverview demoTree).total_folders =
      ((scan_human_folder_complete demoTree).subfolders.map
        (fun e => e.2.total_folders)).sum + 1 ∧
    (scanOverview demoTree).total_files =
      ((scan_human_folder_complete demoTree).subfolders.map
        (fun e => e.2.total_files)).sum +
        (mkRecord [] demoTree.files demoTree.subdirs).num_files :=
  ⟨(claim_C1_amended_overview demoTree (by decide)).1,
   (claim_C1_amended_overview demoTree (by decide)).2.1⟩

/-- The full record list of a completed scan is exactly the walk output. -/
theorem scan_all_folders (t : Tree) :
    (scan_human_folder_complete t).all_folders = walkTree t [] := by
  unfold scan_human_folder_complete aggregate
  rw [foldl_consume_all_folders]
  rfl

/-- C8: the `All_Folders` table and every per-group table are ordered by
depth ascending then relative path lexicographically; each is a
permutation of the rows it presents; and when the relative paths of the
visited nodes are pairwise distinct this ordering is the unique sorted
arrangement, hence reproduced exactly across runs on the same aggregates. -/
theorem claim_C8_row_ordering (t : Tree)
    (hnd : ((scan_human_folder_complete t).all_folders.map pathStr).Nodup) :
    (allFoldersTable (scan_human_folder_complete t)).Perm
      (scan_human_folder_complete t).all_folders ∧
    (allFoldersTable (scan_human_folder_complete t)).Pairwise rowLE ∧
    (∀ l, l.Perm (scan_human_folder_complete t).all_folders → l.Pairwise rowLE →
      l = allFoldersTable (scan_human_folder_complete t)) ∧
    (∀ name sf, lookupAssoc (scan_human_folder_complete t).subfolders name = some sf →
      (groupTable sf).Perm sf.folder_details ∧
      (groupTable sf).Pairwise rowLE ∧
      (∀ l, l.Perm sf.folder_details → l.Pairwise rowLE → l = groupTable sf)) := by
  refine ⟨sortRows_perm _, sortRows_sorted _, ?_, ?_⟩
  · intro l hl hsl
    refine sorted_rows_unique l (allFoldersTable (scan_human_folder_complete t))
      (hl.trans (sortRows_perm _).symm) hsl (sortRows_sorted _) ?_
    exact ((hl.map pathStr).nodup_iff).mpr hnd
  · intro name sf hsf
    obtain ⟨hdet, -⟩ := scan_group_invariants t name sf hsf
    have hsubl : sf.folder_details.Sublist (scan_human_folder_complete t).all_folders := by
      rw [hdet, scan_all_folders]
      exact List.filter_sublist _
    have hnd' : (sf.folder_details.map pathStr).Nodup :=
      hnd.sublist (hsubl.map pathStr)
    refine ⟨sortRows_perm _, sortRows_sorted _, ?_⟩
    intro l hl hsl
    refine sorted_rows_unique l (groupTable sf)
      (hl.trans (sortRows_perm _).symm) hsl (sortRows_sorted _) ?_
    exact ((hl.map pathStr).nodup_iff).mpr hnd'

/-- C8 witness: on the demo scan (whose relative paths are pairwise
distinct), the `All_Folders` table is sorted and is a permutation of the
scanned records — via the claim theorem. -/
theorem claim_C8_witness :
    (allFoldersTable (scan_human_folder_complete demoTree)).Pairwise rowLE ∧
    (allFoldersTable (scan_human_folder_complete demoTree)).Perm
      (scan_human_folder_complete demoTree).all_folders :=
  ⟨(claim_C8_row_ordering demoTree (by decide)).2.1,
   (claim_C8_row_ordering demoTree (by decide)).1⟩

/-! ### Per-key characterization of `buildFileTypes` -/

theorem sumKey_buildFileTypes_aux (files : List String) (c : List (String × Nat))
    (k : String) :
    sumKey (files.foldl (fun c f => bumpBy c (extLower f) 1) c) k =
      sumKey c k + files.countP (fun f => decide (extLower f = k)) := by
  induction files generalizing c with
  | nil => simp
  | cons f fs ih =>
      simp only [List.foldl_cons, ih, sumKey_bumpBy, List.countP_cons]
      by_cases h : extLower f = k
      · simp only [h]
        simp
        omega
      · have h' : ¬ k = extLower f := fun hh => h hh.symm
        simp [h, h']

theorem sumKey_buildFileTypes (files : List String) (k : String) :
    sumKey (buildFileTypes files) k =
      files.countP (fun f => decide (extLower f = k)) := by
  have := sumKey_buildFileTypes_aux files [] k
  simpa [buildFileTypes, sumKey] using this

theorem sxAux_no_dot (cs : List Char) (seen : Bool) (h : '.' ∉ cs) :
    sxAux seen cs = [] := by
  induction cs generalizing seen with
  | nil => rfl
  | cons c rest ih =>
      simp only [List.mem_cons] at h
      push_neg at h
      have hc : ¬ c = '.' := fun hh => h.1 hh.symm
      simp only [sxAux, if_neg hc]
      exact ih true h.2

/-- A filename without any dot gets the empty extension key. -/
theorem extLower_no_dot (f : String) (h : '.' ∉ f.data) : extLower f = "" := by
  unfold extLower splitext_ext
  rw [sxAux_no_dot f.data false h]
  rfl

/-- C10: every file contributes exactly one key to each extension counter
it touches — its final dot-suffix lowercased (`extLower`, the empty string
when no suffix starts) — so the per-folder counter's values sum to
`num_files`, every per-group `extension_counts` sums to that group's
`total_files`, and every per-subject counter sums to the file total of the
records under that subject; a multi-suffix file such as `x.nii.gz` is
keyed under `.gz` (never `.nii.gz`) yet still increments the NIfTI
counter; and the subject status classifier reads the `.mat`/`.dat`/`.ima`
counts of last extensions only, so `a.mat.gz` does not count toward
Processed. -/
theorem claim_C10_last_extension_keying :
    (∀ files : List String, counterTotal (buildFileTypes files) = files.length) ∧
    (∀ (files : List String) (k : String), sumKey (buildFileTypes files) k =
      files.countP (fun f => decide (extLower f = k))) ∧
    extLower "x.nii.gz" = ".gz" ∧
    is_nifti_filename "x.nii.gz" = true ∧
    (mkRecord [] ["x.nii.gz"] []).file_types = [(".gz", 1)] ∧
    (mkRecord [] ["x.nii.gz"] []).nifti_files = 1 ∧
    (∀ (rel files : List String) (sds : List (String × Tree)),
      counterTotal (mkRecord rel files sds).file_types =
        (mkRecord rel files sds).num_files) ∧
    (∀ (t : Tree) (name : String) (sf : SubfolderData),
      lookupAssoc (scan_human_folder_complete t).subfolders name = some sf →
      counterTotal sf.file_counts = sf.total_files) ∧
    (∀ (t : Tree) (name : String) (sf : SubfolderData) (subj : String)
      (c : List (String × Nat)),
      lookupAssoc (scan_human_folder_complete t).subfolders name = some sf →
      lookupAssoc (subjectExtCounts sf.folder_details) subj = some c →
      counterTotal c = ((sf.folder_details.filter (fun r => secondIs subj r)).map
        (fun r => r.num_files)).sum) ∧
    statusOfCounter (buildFileTypes ["a.mat.gz"]) = SubjectStatus.unknown ∧
    (∀ c, statusOfCounter c = classifyStatus (lookupCount c ".mat")
      (lookupCount c ".dat") (lookupCount c ".ima")) ∧
    (∀ f : String, '.' ∉ f.data → extLower f = "") := by
  refine ⟨counterTotal_buildFileTypes, sumKey_buildFileTypes, by decide, by decide,
    by decide, by decide, ?_, ?_, ?_, by decide, fun c => rfl, extLower_no_dot⟩
  · intro rel files sds
    simpa [mkRecord] using counterTotal_buildFileTypes files
  · intro t name sf hsf
    exact (scan_group_invariants t name sf hsf).2.2.2.2.2.2.2
  · intro t name sf subj c hsf hc
    obtain ⟨hdet, -⟩ := scan_group_invariants t name sf hsf
    have hchar := subjectExtCounts_total sf.folder_details [] subj
    have hget : getOrEmpty (subjectExtCounts sf.folder_details) subj = c := by
      simp [getOrEmpty, hc]
    rw [show (sf.folder_details.foldl
        (fun acc r =>
          match r.path with
          | _ :: s :: _ => addToSubject s r.file_types acc
          | _ => acc) []) = subjectExtCounts sf.folder_details from rfl] at hchar
    rw [hget] at hchar
    rw [hchar]
    have hcong : (sf.folder_details.filter (fun r => secondIs subj r)).map
        (fun r => counterTotal r.file_types) =
        (sf.folder_details.filter (fun r => secondIs subj r)).map
          (fun r => r.num_files) := by
      refine List.map_congr_left (fun r hr => ?_)
      have hrw : r ∈ walkTree t [] := by
        have := List.mem_of_mem_filter hr
        rw [hdet] at this
        exact List.mem_of_mem_filter this
      exact walk_record_coherent t [] r hrw
    rw [hcong]
    simp [getOrEmpty, lookupAssoc, counterTotal]

/-- C10 witness: group `A` of the demo scan and its subject `S1`
instantiate the per-group and per-subject sum properties, via the claim
theorem. -/
theorem claim_C10_witness :
    counterTotal demoSfA.file_counts = demoSfA.total_files ∧
    counterTotal demoSubjS1 =
      ((demoSfA.folder_details.filter (fun r => secondIs "S1" r)).map
        (fun r => r.num_files)).sum :=
  ⟨claim_C10_last_extension_keying.2.2.2.2.2.2.2.1 demoTree "A" demoSfA (by decide),
   claim_C10_last_extension_keying.2.2.2.2.2.2.2.2.1 demoTree "A" demoSfA "S1"
     demoSubjS1 (by decide) (by decide)⟩

end HumanFolder
